import Mathlib

/-!
Verification development for the Prism blockchain ledger-state engine
(src/src/blockchain/mod.rs).  The Rust code is shallowly embedded:

* the RocksDB column families become function-valued fields of the
  `BlockChain` structure (absent key = `none`);
* the custom merge operators (`vote_vec_full_merge`,
  `h256_vec_append_merge`) are embedded as pure functions and applied
  eagerly at the point where the source queues the merge into a write
  batch (RocksDB applies them lazily at read/compaction time, which is
  observationally the same for the sequential semantics studied here);
* Rust panics (`unwrap` on an absent key, `unreachable!`, index out of
  bounds) are modelled as `Option.none` results;
* `u16` arithmetic that can wrap is taken modulo 65536 at the points
  where the source performs it (release-mode wrapping semantics);
* the floating-point confirmation mathematics of `proposer_leader`
  (Poisson model, per-vote reversal probability, Gaussian LCB) is
  abstracted behind an `Oracle` giving each proposer block its raw
  pre-clamp LCB value as a rational number, together with the machine
  epsilon used by the tie-break comparisons; everything around it
  (vote totals, the 3/5 quorum guard, the argmax/tie-break/confirmation
  scan) is embedded concretely from the source;
* the unbounded loops of `vote_diff` and of the ledger reconfirmation
  are given explicit fuel; running out of fuel yields `none`.
-/

namespace Prism

/-- Hashes (32 bytes in the source), modelled abstractly as natural numbers (the source
only compares them for equality and order). -/
abbrev H256 := Nat

/-- Pointwise update of a function-valued map. -/
def fupd {α : Type} (f : Nat → α) (k : Nat) (v : α) : Nat → α :=
  fun x => if x = k then v else f x

@[simp] theorem fupd_same {α : Type} (f : Nat → α) (k : Nat) (v : α) :
    fupd f k v k = v := by simp [fupd]

@[simp] theorem fupd_ne {α : Type} (f : Nat → α) (k x : Nat) (v : α) (h : x ≠ k) :
    fupd f k v x = f x := by simp [fupd, h]

/-! ## Merge operators (mod.rs lines 1613-1696) -/

/-- Rust `Vec::swap_remove(p)`: replace the element at `p` with the
last element and pop the last slot. -/
def swapRemove {α : Type} (l : List α) (p : Nat) : List α :=
  match l.getLast? with
  | none => []
  | some last => (l.set p last).dropLast

/-- One operation of the vote-edit merge operator
(`vote_vec_full_merge`, the body of the `for operation in operations`
loop).  `(true, c, l)` inserts `(c, l)` if absent; `(false, c, l)`
swap-removes the first occurrence and hits `unreachable!` (modelled as
`none`) when the pair is absent. -/
def voteOpStep (e : List (Nat × Nat)) : Bool × Nat × Nat → Option (List (Nat × Nat))
  | (true, c, l) => some (if (c, l) ∈ e then e else e ++ [(c, l)])
  | (false, c, l) =>
      match e.findIdx? (fun x => x.1 == c && x.2 == l) with
      | some p => some (swapRemove e p)
      | none => none

/-- Apply one merge operand (a list of vote-edit operations) in order. -/
def voteOpsApply (e : List (Nat × Nat)) (ops : List (Bool × Nat × Nat)) :
    Option (List (Nat × Nat)) :=
  ops.foldlM voteOpStep e

/-- Full merge operator of the `PROPOSER_NODE_VOTE` column family
(mod.rs `vote_vec_full_merge`): start from the existing value (or `[]`)
and apply every operand list in order. -/
def vote_vec_full_merge (existing : Option (List (Nat × Nat)))
    (operands : List (List (Bool × Nat × Nat))) : Option (List (Nat × Nat)) :=
  operands.foldlM voteOpsApply (existing.getD [])

/-- Append the hashes of one merge operand, skipping those already
present (inner loop of `h256_vec_append_merge`). -/
def appendUniqueOne (acc : List H256) (hs : List H256) : List H256 :=
  hs.foldl (fun a h => if h ∈ a then a else a ++ [h]) acc

/-- Append-unique merge operator of the hash-list column families
(mod.rs `h256_vec_append_merge`). -/
def h256_vec_append_merge (existing : Option (List H256))
    (operands : List (List H256)) : List H256 :=
  operands.foldl appendUniqueOne (existing.getD [])

/-! ## Data model -/

/-- Blockchain configuration (the fields of `BlockchainConfig` the
engine reads). -/
structure Config where
  voterChains : Nat
  proposerGenesis : H256
  voterGenesis : List H256
  quantileEpsilonConfirm : ℚ
  quantileEpsilonDeconfirm : ℚ
  adversary_ratio : ℚ

/-- Abstraction of the floating-point part of `proposer_leader`:
`lcbTmp level quantile block` is the value
`block_votes_mean - sqrt(block_votes_variance) * quantile` computed by
the source for `block` at `level`, and `eps` is `f32::EPSILON` used by
the tie-break comparisons. -/
structure Oracle where
  lcbTmp : Nat → ℚ → H256 → ℚ
  eps : ℚ

/-- The engine state: one field per column family plus the in-memory
indices guarded by mutexes in the source (struct `BlockChain`). -/
structure BlockChain where
  proposerNodeLevel : H256 → Option Nat
  voterNodeLevel : H256 → Option Nat
  voterNodeChain : H256 → Option Nat
  voterTreeLevelCount : Nat × Nat → Option Nat
  proposerTreeLevel : Nat → Option (List H256)
  voterNodeVotedLevel : H256 → Option Nat
  proposerNodeVote : H256 → Option (List (Nat × Nat))
  proposerLeaderSequence : Nat → Option H256
  proposerLedgerOrder : Nat → Option (List H256)
  proposerVoteCount : H256 → Option Nat
  parentNeighbor : H256 → Option H256
  voteNeighbor : H256 → Option (List H256)
  voterParentNeighbor : H256 → Option H256
  transactionRefNeighbor : H256 → Option (List H256)
  proposerRefNeighbor : H256 → Option (List H256)
  proposerBestLevel : Nat
  voterBest : List (H256 × Nat)
  unreferredTransactions : H256 → Option Nat
  unreferredProposers : H256 → Option Nat
  unconfirmedProposers : H256 → Bool
  proposerLedgerTip : Nat
  voterLedgerTips : List H256

/-- Block content variants (crate `block`). -/
inductive Content where
  | proposer (proposer_refs : List H256) (transaction_refs : List H256)
  | voter (voter_parent : H256) (votes : List H256)
  | transaction

/-- A validated block as seen by `insert_block`: its hash, the proposer
parent and timestamp from the header, and the content. -/
structure Block where
  hash : H256
  parent : H256
  timestamp : Nat
  content : Content

/-! ## new() (mod.rs lines 120-230) -/

/-- State right after `open` plus the proposer-genesis writes of `new`
(mod.rs lines 140-176): empty column families, default in-memory
indices, and the genesis proposer registered at level 0 as leader and
ledger order. -/
def genesisBase (cfg : Config) : BlockChain where
  proposerNodeLevel := fupd (fun _ => none) cfg.proposerGenesis (some 0)
  voterNodeLevel := fun _ => none
  voterNodeChain := fun _ => none
  voterTreeLevelCount := fun _ => none
  proposerTreeLevel :=
    fupd (fun _ => none) 0 (some (h256_vec_append_merge none [[cfg.proposerGenesis]]))
  voterNodeVotedLevel := fun _ => none
  proposerNodeVote := fun _ => none
  proposerLeaderSequence := fupd (fun _ => none) 0 (some cfg.proposerGenesis)
  proposerLedgerOrder := fupd (fun _ => none) 0 (some [cfg.proposerGenesis])
  proposerVoteCount := fun _ => none
  parentNeighbor := fun _ => none
  voteNeighbor := fun _ => none
  voterParentNeighbor := fun _ => none
  transactionRefNeighbor := fupd (fun _ => none) cfg.proposerGenesis (some [])
  proposerRefNeighbor := fupd (fun _ => none) cfg.proposerGenesis (some [])
  proposerBestLevel := 0
  voterBest := List.replicate cfg.voterChains (0, 0)
  unreferredTransactions := fun _ => none
  unreferredProposers := fupd (fun _ => none) cfg.proposerGenesis (some 0)
  unconfirmedProposers := fun _ => false
  proposerLedgerTip := 0
  voterLedgerTips := List.replicate cfg.voterChains 0

/-- Per-voter-chain genesis writes of `new` (mod.rs lines 180-225). -/
def newChainStep (cfg : Config) (s : BlockChain) (c : Nat) : Option BlockChain := do
  let vg ← cfg.voterGenesis[c]?
  let newVotes ← vote_vec_full_merge (s.proposerNodeVote cfg.proposerGenesis) [[(true, c, 0)]]
  let s1 : BlockChain :=
    { s with
      parentNeighbor := fupd s.parentNeighbor vg (some cfg.proposerGenesis)
      voteNeighbor :=
        fupd s.voteNeighbor vg
          (some (h256_vec_append_merge (s.voteNeighbor vg) [[cfg.proposerGenesis]]))
      proposerVoteCount :=
        fupd s.proposerVoteCount cfg.proposerGenesis
          (some ((s.proposerVoteCount cfg.proposerGenesis).getD 0 + 1))
      proposerNodeVote := fupd s.proposerNodeVote cfg.proposerGenesis (some newVotes)
      voterNodeLevel := fupd s.voterNodeLevel vg (some 0)
      voterNodeVotedLevel := fupd s.voterNodeVotedLevel vg (some 0)
      voterNodeChain := fupd s.voterNodeChain vg (some c)
      voterTreeLevelCount := fun k =>
        if k = (c, 0) then some ((s.voterTreeLevelCount k).getD 0 + 1)
        else s.voterTreeLevelCount k }
  let best ← s1.voterBest[c]?
  let s2 : BlockChain := { s1 with voterBest := s1.voterBest.set c (vg, best.2) }
  some { s2 with voterLedgerTips := s2.voterLedgerTips.set c vg }

/-- The function `BlockChain::new` (mod.rs lines 120-230): destroy/open, then write
the genesis blocks. -/
def BlockChain.new (cfg : Config) : Option BlockChain :=
  (List.range cfg.voterChains).foldlM (newChainStep cfg) (genesisBase cfg)

/-! ## insert_block (mod.rs lines 234-418) -/

/-- The function `BlockChain::insert_block`.  A panic (missing parent metadata,
voter-chain index out of range) is `none`. -/
def insert_block (s : BlockChain) (b : Block) : Option BlockChain :=
  match b.content with
  | Content.proposer refs txrefs => do
      -- parent level lookup (line 293) precedes every state change
      let parentLevel ← s.proposerNodeLevel b.parent
      let selfLevel := parentLevel + 1
      -- batched writes (lines 278-297) plus the pre-commit insertion
      -- into the unreferred/unconfirmed sets (lines 305-317)
      let s1 : BlockChain :=
        { s with
          parentNeighbor := fupd s.parentNeighbor b.hash (some b.parent)
          proposerRefNeighbor := fupd s.proposerRefNeighbor b.hash (some (b.parent :: refs))
          transactionRefNeighbor := fupd s.transactionRefNeighbor b.hash (some txrefs)
          proposerNodeLevel := fupd s.proposerNodeLevel b.hash (some selfLevel)
          proposerTreeLevel :=
            fupd s.proposerTreeLevel selfLevel
              (some (h256_vec_append_merge (s.proposerTreeLevel selfLevel) [[b.hash]]))
          unreferredProposers := fupd s.unreferredProposers b.hash (some b.timestamp)
          unconfirmedProposers := fun h => if h = b.hash then true else s.unconfirmedProposers h }
      -- commit + proposer best promotion (lines 323-329)
      let s2 : BlockChain :=
        { s1 with
          proposerBestLevel :=
            if s1.proposerBestLevel < selfLevel then selfLevel else s1.proposerBestLevel }
      -- post-commit removals (lines 336-346)
      some
        { s2 with
          unreferredProposers := fun h =>
            if h = b.parent ∨ h ∈ refs then none else s2.unreferredProposers h
          unreferredTransactions := fun h =>
            if h ∈ txrefs then none else s2.unreferredTransactions h }
  | Content.voter vparent votes => do
      let vpLevel ← s.voterNodeLevel vparent
      let vpChain ← s.voterNodeChain vparent
      let selfLevel := vpLevel + 1
      let ppLevel ← s.proposerNodeLevel b.parent
      let s1 : BlockChain :=
        { s with
          parentNeighbor := fupd s.parentNeighbor b.hash (some b.parent)
          voterParentNeighbor := fupd s.voterParentNeighbor b.hash (some vparent)
          voterNodeLevel := fupd s.voterNodeLevel b.hash (some selfLevel)
          voterNodeChain := fupd s.voterNodeChain b.hash (some vpChain)
          voterTreeLevelCount := fun k =>
            if k = (vpChain, selfLevel) then some ((s.voterTreeLevelCount k).getD 0 + 1)
            else s.voterTreeLevelCount k
          proposerVoteCount :=
            votes.foldl (fun f p => fupd f p (some ((f p).getD 0 + 1))) s.proposerVoteCount
          voteNeighbor := fupd s.voteNeighbor b.hash (some votes)
          voterNodeVotedLevel := fupd s.voterNodeVotedLevel b.hash (some ppLevel) }
      -- post-commit voter best update (lines 391-399)
      let best ← s1.voterBest[vpChain]?
      if best.2 < selfLevel then
        some { s1 with voterBest := s1.voterBest.set vpChain (b.hash, selfLevel) }
      else some s1
  | Content.transaction =>
      some
        { s with
          unreferredTransactions := fupd s.unreferredTransactions b.hash (some b.timestamp)
          parentNeighbor := fupd s.parentNeighbor b.hash (some b.parent) }

/-! ## vote_diff (mod.rs lines 828-890) -/

/-- Second loop of `vote_diff` (`while to != from`): both pointers walk
to their voter parents, collecting added/removed votes tagged with the
level of the voter block casting them. -/
def voteDiffJoint (s : BlockChain) :
    Nat → H256 → H256 → Nat → Nat → List (H256 × Nat) → List (H256 × Nat) →
    Option (List (H256 × Nat) × List (H256 × Nat))
  | fuel, t, f, tLevel, fLevel, addedV, removedV =>
    if t = f then some (addedV, removedV)
    else
      match fuel with
      | 0 => none
      | fuel + 1 => do
          let tVotes ← s.voteNeighbor t
          let addedV := addedV ++ tVotes.map (fun v => (v, tLevel))
          let t2 ← s.voterParentNeighbor t
          let fVotes ← s.voteNeighbor f
          let removedV := removedV ++ fVotes.map (fun v => (v, fLevel))
          let f2 ← s.voterParentNeighbor f
          voteDiffJoint s fuel t2 f2 (tLevel - 1) (fLevel - 1) addedV removedV

/-- First loop of `vote_diff` (`while to_level != from_level`): walk the
deeper pointer up to the other one's level. -/
def voteDiffAlign (s : BlockChain) :
    Nat → H256 → H256 → Nat → Nat → List (H256 × Nat) → List (H256 × Nat) →
    Option (List (H256 × Nat) × List (H256 × Nat))
  | fuel, t, f, tLevel, fLevel, addedV, removedV =>
    if tLevel = fLevel then voteDiffJoint s fuel t f tLevel fLevel addedV removedV
    else
      match fuel with
      | 0 => none
      | fuel + 1 =>
        if fLevel < tLevel then do
          let tVotes ← s.voteNeighbor t
          let t2 ← s.voterParentNeighbor t
          voteDiffAlign s fuel t2 f (tLevel - 1) fLevel
            (addedV ++ tVotes.map (fun v => (v, tLevel))) removedV
        else do
          let fVotes ← s.voteNeighbor f
          let f2 ← s.voterParentNeighbor f
          voteDiffAlign s fuel t f2 tLevel (fLevel - 1) addedV
            (removedV ++ fVotes.map (fun v => (v, fLevel)))

/-- The function `BlockChain::vote_diff` (mod.rs lines 828-890): the added and
removed votes when a voter chain tip moves from `f` to `t`. -/
def vote_diff (s : BlockChain) (f t : H256) (fuel : Nat) :
    Option (List (H256 × Nat) × List (H256 × Nat)) := do
  let tLevel ← s.voterNodeLevel t
  let fLevel ← s.voterNodeLevel f
  voteDiffAlign s fuel t f tLevel fLevel [] []

/-! ## proposer_leader (mod.rs lines 664-824) -/

/-- The function `num_voter_blocks` (mod.rs lines 810-824): total count of voter
blocks on `chain` at levels `startLevel..=endLevel`; every level must
be present in the count column family. -/
def num_voter_blocks (s : BlockChain) (chain startLevel endLevel : Nat) : Option Nat :=
  (List.range' startLevel (endLevel + 1 - startLevel)).foldlM
    (fun acc l => (s.voterTreeLevelCount (chain, l)).map (acc + ·)) 0

/-- Inner vote loop of the statistics pass of `proposer_leader`
(mod.rs lines 695-706): look up the chain best (index panic if out of
range), count the voter blocks above the vote (panic if a level count
is missing), and bump the `u16` total with wrap-around. -/
def foldVotes (s : BlockChain) : List (Nat × Nat) → Nat → Option Nat
  | [], acc => some acc
  | (c, vl) :: rest, acc => do
      let best ← s.voterBest[c]?
      let _ ← num_voter_blocks s c vl best.2
      foldVotes s rest ((acc + 1) % 65536)

/-- Statistics pass of `proposer_leader` over the candidate blocks
(mod.rs lines 689-708); returns the `u16` `total_vote_count`. -/
def collectVoteStats (s : BlockChain) : List H256 → Nat → Option Nat
  | [], acc => some acc
  | b :: rest, acc => do
      let acc2 ← foldVotes s ((s.proposerNodeVote b).getD []) acc
      collectVoteStats s rest acc2

/-- The epsilon tie-break of the argmax scan (mod.rs lines 769-777):
when the candidate ties with the current leader, keep the smaller
hash. -/
def tieBreak (eps m1 bl : ℚ) (b : H256) : Option H256 → Option H256
  | some cur => if |m1 - bl| < eps ∧ b < cur then some b else some cur
  | none => none

/-- The max-LCB / argmax scan of `proposer_leader` (mod.rs lines
735-778), with the per-block clamped LCB supplied by `lcb`. -/
def selectLeader (lcb : H256 → ℚ) (eps : ℚ) :
    List H256 → ℚ → Option H256 → ℚ × Option H256
  | [], m, lead => (m, lead)
  | b :: rest, m, lead =>
      let bl := lcb b
      let m1 := if m < bl then bl else m
      let lead1 := if m < bl then some b else lead
      selectLeader lcb eps rest m1 (tieBreak eps m1 bl b lead1)

/-- The confirmation scan of `proposer_leader` (mod.rs lines 787-803):
reject the candidate if any other block could still overtake it. -/
def leaderCheck (lcb : H256 → ℚ) (eps m rem : ℚ) (cur : H256) :
    List H256 → Option H256
  | [] => some cur
  | p :: rest =>
      if m < lcb p + rem ∧ p ≠ cur then none
      else if |m - (lcb p + rem)| < eps ∧ p < cur then none
      else leaderCheck lcb eps m rem cur rest

/-- The `tmp > 0` clamp of the per-block LCB (mod.rs lines 757-761). -/
def clampLcb (q : ℚ) : ℚ := if 0 < q then q else 0

/-- The part of `proposer_leader` guarded by the 3/5 quorum check
(mod.rs lines 720-804), with the per-vote floating-point mathematics
abstracted by the oracle. -/
def leaderSelectionPhase (cfg : Config) (orc : Oracle) (level : Nat) (quantile : ℚ)
    (blocks : List H256) : Option H256 :=
  let lcb : H256 → ℚ := fun b => clampLcb (orc.lcbTmp level quantile b)
  let totalLcb := (blocks.map lcb).sum
  let p := selectLeader lcb orc.eps blocks 0 none
  let remaining := (cfg.voterChains : ℚ) - totalLcb
  if p.1 ≤ remaining ∨ p.2 = none then none
  else
    match p.2 with
    | none => none
    | some cur => leaderCheck lcb orc.eps p.1 remaining cur blocks

/-- The function `BlockChain::proposer_leader` (mod.rs lines 664-808).  The outer
`Option` is panic/IO failure; the inner `Option H256` is the elected
leader or "no leader". -/
def proposer_leader (cfg : Config) (orc : Oracle) (s : BlockChain)
    (level : Nat) (quantile : ℚ) : Option (Option H256) := do
  let blocks ← s.proposerTreeLevel level
  let total ← collectVoteStats s blocks 0
  -- debug panic (mod.rs lines 712-717)
  if cfg.voterChains < total then none
  else
    some
      (if total > cfg.voterChains * 3 % 65536 / 5 then
        leaderSelectionPhase cfg orc level quantile blocks
      else none)

/-! ## update_ledger (mod.rs lines 420-662) -/

/-- Affected proposer-level range, kept exactly as the source keeps its
`Range<u64>` with `u64::MAX`/`u64::MIN` sentinels. -/
structure URange where
  start : Nat
  stop : Nat
deriving DecidableEq

def u64MAX : Nat := 18446744073709551615

/-- Queue (and here: eagerly apply) one vote-edit merge on the
`PROPOSER_NODE_VOTE` column family. -/
def applyVoteMerge (s : BlockChain) (key : H256) (ops : List (Bool × Nat × Nat)) :
    Option BlockChain := do
  let newv ← vote_vec_full_merge (s.proposerNodeVote key) [ops]
  some { s with proposerNodeVote := fupd s.proposerNodeVote key (some newv) }

/-- Apply one chain's removed (`polarity = false`) or added
(`polarity = true`) votes (mod.rs lines 462-490), widening the affected
range with each vote target's proposer level. -/
def applyDiffVotes (polarity : Bool) (c : Nat) :
    BlockChain → URange → List (H256 × Nat) → Option (BlockChain × URange)
  | s, r, [] => some (s, r)
  | s, r, (ph, vl) :: rest => do
      let s2 ← applyVoteMerge s ph [(polarity, c, vl)]
      let plevel ← s2.proposerNodeLevel ph
      let r2 : URange :=
        { start := if plevel < r.start then plevel else r.start
          stop := if r.stop ≤ plevel then plevel + 1 else r.stop }
      applyDiffVotes polarity c s2 r2 rest

/-- Phase 1 of `update_ledger` (mod.rs lines 451-494): per voter chain,
record the new tip, diff the votes and apply them. -/
def phase1 (cfg : Config) :
    BlockChain → URange → List Nat → Nat → Option (BlockChain × URange)
  | s, r, [], _ => some (s, r)
  | s, r, c :: rest, fuel => do
      let fromT ← s.voterLedgerTips[c]?
      let best ← s.voterBest[c]?
      let s1 : BlockChain := { s with voterLedgerTips := s.voterLedgerTips.set c best.1 }
      let diff ← vote_diff s1 fromT best.1 fuel
      let sr2 ← applyDiffVotes false c s1 r diff.2
      let sr3 ← applyDiffVotes true c sr2.1 sr2.2 diff.1
      phase1 cfg sr3.1 sr3.2 rest fuel

/-- Range extension of mod.rs lines 518-525: pull the start of the
affected range down to the ledger tip + 1. -/
def adjustRange (s : BlockChain) (r : URange) : URange :=
  if r.start < r.stop ∧ s.proposerLedgerTip + 1 < r.start then
    { start := s.proposerLedgerTip + 1, stop := r.stop }
  else r

/-- The levels iterated by `for level in affected_range` (a Rust
`Range` yields nothing when `start >= end`). -/
def rangeLevels (r : URange) : List Nat :=
  if r.stop ≤ r.start then [] else List.range' r.start (r.stop - r.start)

/-- Phase 2 of `update_ledger` (mod.rs lines 528-565): recompute the
leader of every affected level, tracking the first level whose leader
changed. -/
def phase2 (cfg : Config) (orc : Oracle) :
    BlockChain → Option Nat → List Nat → Option (BlockChain × Option Nat)
  | s, cb, [] => some (s, cb)
  | s, cb, lv :: rest => do
      let existing := s.proposerLeaderSequence lv
      let newConfirm ← proposer_leader cfg orc s lv cfg.quantileEpsilonConfirm
      let newDeconfirm ← proposer_leader cfg orc s lv cfg.quantileEpsilonDeconfirm
      let newLeader := if existing.isSome then newDeconfirm else newConfirm
      if newLeader ≠ existing then
        phase2 cfg orc
          { s with proposerLeaderSequence := fupd s.proposerLeaderSequence lv newLeader }
          (if cb.isNone then some lv else cb) rest
      else phase2 cfg orc s cb rest

/-- Deconfirmation loop of `update_ledger` (mod.rs lines 593-601):
move every ledger-order entry of the given levels back into the
unconfirmed set, collecting them in `removed`. -/
def phase3Deconfirm :
    BlockChain → List Nat → List H256 → Option (BlockChain × List H256)
  | s, [], removed => some (s, removed)
  | s, lv :: rest, removed => do
      let original ← s.proposerLedgerOrder lv
      let s1 : BlockChain :=
        { s with
          proposerLedgerOrder := fupd s.proposerLedgerOrder lv none
          unconfirmedProposers := fun h =>
            if h ∈ original then true else s.unconfirmedProposers h }
      phase3Deconfirm s1 rest (removed ++ original)

/-- The depth-first traversal of the reconfirmation phase
(mod.rs lines 615-632): pop, skip already-confirmed nodes, append to
`order`, push the proposer refs. -/
def ledger_dfs (s : BlockChain) (unconf : H256 → Bool) :
    Nat → List H256 → List H256 → Option (List H256)
  | 0, [], order => some order
  | 0, _ :: _, _ => none
  | _ + 1, [], order => some order
  | fuel + 1, top :: rest, order =>
      if unconf top then
        match s.proposerRefNeighbor top with
        | none => none
        | some refs => ledger_dfs s unconf fuel (refs.reverse ++ rest) (order ++ [top])
      else ledger_dfs s unconf fuel rest order

/-- The dedup-keep-first filter of the reconfirmation phase
(mod.rs lines 637-640): `filter(|h| unconfirmed_proposers.remove(h))`.
Returns the retained list together with the updated unconfirmed set. -/
def dedup_filter (unconf : H256 → Bool) : List H256 → List H256 × (H256 → Bool)
  | [] => ([], unconf)
  | h :: t =>
      if unconf h then
        let r := dedup_filter (fun x => if x = h then false else unconf x) t
        (h :: r.1, r.2)
      else dedup_filter unconf t

/-- The ledger-order list written for one level by the reconfirmation
phase of `update_ledger` (mod.rs lines 614-640): DFS from the leader,
reverse the visit order, dedup keeping the earlier copy while removing
the retained hashes from the unconfirmed set. -/
def reconfirm_level_order (s : BlockChain) (unconf : H256 → Bool) (leader : H256)
    (fuel : Nat) : Option (List H256 × (H256 → Bool)) := do
  let ord ← ledger_dfs s unconf fuel [leader] []
  some (dedup_filter unconf ord.reverse)

/-- Reconfirmation loop of `update_ledger` (mod.rs lines 605-644):
confirm level after level until one has no leader, then set the ledger
tip to the previous level (with `u64` wrap-around on `level - 1`). -/
def reconfirmLoop (s0 : BlockChain) (dfsFuel : Nat) :
    Nat → BlockChain → Nat → List H256 → Option (BlockChain × List H256)
  | 0, _, _, _ => none
  | fuel + 1, s, lv, added =>
      match s.proposerLeaderSequence lv with
      | none => some ({ s with proposerLedgerTip := (lv + u64MAX) % (u64MAX + 1) }, added)
      | some leader => do
          let r ← reconfirm_level_order s s.unconfirmedProposers leader dfsFuel
          let s1 : BlockChain :=
            { s with
              unconfirmedProposers := r.2
              proposerLedgerOrder := fupd s.proposerLedgerOrder lv (some r.1) }
          reconfirmLoop s0 dfsFuel fuel s1 (lv + 1) (added ++ r.1)

/-- Continuity guard of the reconfirmation (mod.rs line 605): rebuild
the ledger tail only when `change_begin` does not skip past the current
ledger tip. -/
def reconfirmPhase (s3 : BlockChain) (cbv fuel : Nat) :
    Option (BlockChain × List H256) :=
  if cbv ≤ s3.proposerLedgerTip + 1 then reconfirmLoop s3 fuel fuel s3 cbv []
  else some (s3, [])

/-- Transaction-ref projection of `update_ledger` (mod.rs lines
648-657). -/
def projectTxRefs (s : BlockChain) : List H256 → Option (List H256)
  | [] => some []
  | b :: rest => do
      let t ← s.transactionRefNeighbor b
      let r ← projectTxRefs s rest
      some (t ++ r)

/-- The function `BlockChain::update_ledger` (mod.rs lines 420-662).  Returns the
new state and the pair (added transaction blocks, removed transaction
blocks). -/
def update_ledger (cfg : Config) (orc : Oracle) (s : BlockChain) (fuel : Nat) :
    Option (BlockChain × (List H256 × List H256)) := do
  let sr1 ← phase1 cfg s { start := u64MAX, stop := 0 } (List.range cfg.voterChains) fuel
  let s1 := sr1.1
  let r2 := adjustRange s1 sr1.2
  let sc ← phase2 cfg orc s1 none (rangeLevels r2)
  let s2 := sc.1
  match sc.2 with
  | none => some (s2, ([], []))
  | some cbv => do
      let sr3 ← phase3Deconfirm s2 (List.range' cbv (s2.proposerLedgerTip + 1 - cbv)) []
      let s3 := sr3.1
      let sa ← reconfirmPhase s3 cbv fuel
      let s4 := sa.1
      let removedTx ← projectTxRefs s4 sr3.2
      let addedTx ← projectTxRefs s4 sa.2
      some (s4, (addedTx, removedTx))

/-! ## Reachable engine states -/

/-- States reachable from `new` by any sequence of `insert_block` and
`update_ledger` calls (with any oracle and fuel) that return
successfully. -/
inductive Reachable (cfg : Config) : BlockChain → Prop where
  | init {s : BlockChain} : BlockChain.new cfg = some s → Reachable cfg s
  | insert {s s2 : BlockChain} {b : Block} :
      Reachable cfg s → insert_block s b = some s2 → Reachable cfg s2
  | update {s s2 : BlockChain} {orc : Oracle} {fuel : Nat}
      {r : List H256 × List H256} :
      Reachable cfg s → update_ledger cfg orc s fuel = some (s2, r) → Reachable cfg s2

/-! ## Simple queries -/

/-- The function `contains_transaction` (mod.rs lines 1064-1073): presence in the
parent-neighbor column family. -/
def contains_transaction (s : BlockChain) (h : H256) : Bool :=
  (s.parentNeighbor h).isSome

/-- The function `lagging_level` (mod.rs lines 1096-1105). -/
def lagging_level (s : BlockChain) : Nat :=
  if s.proposerLedgerTip > s.proposerBestLevel then 0
  else s.proposerBestLevel - s.proposerLedgerTip

/-- Cumulative vote count of a proposer block as read by
`unvoted_proposer` (absent key counts as 0, mod.rs lines 975-981). -/
def vcount (s : BlockChain) (b : H256) : Nat :=
  (s.proposerVoteCount b).getD 0

/-- The per-level scan of `unvoted_proposer` (mod.rs lines 973-992):
keep the block with the strictly largest cumulative vote count. -/
def bestVoteScan (s : BlockChain) :
    List H256 → Option (H256 × Nat) → Option (H256 × Nat)
  | [], best => best
  | b :: rest, best =>
      match best with
      | none => bestVoteScan s rest (some (b, vcount s b))
      | some (bh, bn) =>
          bestVoteScan s rest (if bn < vcount s b then (b, vcount s b) else (bh, bn))

/-- One level of `unvoted_proposer` (mod.rs lines 963-993): sort the
level's proposer blocks by hash and scan for the highest vote count;
`best_vote.unwrap()` panics (= `none`) when the level list is empty. -/
def unvotedLevel (s : BlockChain) (level : Nat) : Option H256 := do
  let blocks ← s.proposerTreeLevel level
  match bestVoteScan s (List.insertionSort (· ≤ ·) blocks) none with
  | none => none
  | some p => some p.1

/-- The level loop of `unvoted_proposer`. -/
def unvotedLoop (s : BlockChain) : List Nat → Option (List H256)
  | [] => some []
  | lv :: rest => do
      let b ← unvotedLevel s lv
      let r ← unvotedLoop s rest
      some (b :: r)

/-- The function `BlockChain::unvoted_proposer` (mod.rs lines 938-996). -/
def unvoted_proposer (s : BlockChain) (tip pparent : H256) : Option (List H256) := do
  let firstVote ← s.voterNodeVotedLevel tip
  let lastVote ← s.proposerNodeLevel pparent
  unvotedLoop s (List.range' (firstVote + 1) (lastVote - firstVote))

/-! ## Helper lemmas -/

theorem list_set_self {α : Type} :
    ∀ (l : List α) (n : Nat) (a : α), l[n]? = some a → l.set n a = l
  | [], _, _, h => by simp at h
  | x :: t, 0, a, h => by
      simp at h; simp [List.set, h]
  | x :: t, n + 1, a, h => by
      simp at h; simp [List.set, list_set_self t n a h]

theorem votePred_eq_iff (c l : Nat) (x : Nat × Nat) :
    ((x.1 == c && x.2 == l) = true) ↔ x = (c, l) := by
  cases x; simp [Prod.ext_iff]

theorem votePred_false_of_ne (c l : Nat) (x : Nat × Nat) (hx : x ≠ (c, l)) :
    (x.1 == c && x.2 == l) = false := by
  rcases Bool.eq_false_or_eq_true (x.1 == c && x.2 == l) with ht | hf
  · exact absurd ((votePred_eq_iff c l x).1 ht) hx
  · exact hf

theorem findIdx_none_of_not_mem :
    ∀ (e : List (Nat × Nat)) (c l : Nat) (i : Nat), (c, l) ∉ e →
      e.findIdx? (fun x => x.1 == c && x.2 == l) i = none := by
  intro e c l
  induction e with
  | nil => intro i _; rfl
  | cons x t ih =>
    intro i hmem
    have hx : x ≠ (c, l) := by intro hxe; exact hmem (by simp [hxe])
    have hp := votePred_false_of_ne c l x hx
    have ht : (c, l) ∉ t := fun hmt => hmem (List.mem_cons_of_mem _ hmt)
    rw [List.findIdx?]
    simp only [hp, Bool.false_eq_true, if_false]
    exact ih (i + 1) ht

theorem findIdx_first_occurrence :
    ∀ (e1 e2 : List (Nat × Nat)) (c l : Nat) (i : Nat), (c, l) ∉ e1 →
      (e1 ++ (c, l) :: e2).findIdx? (fun x => x.1 == c && x.2 == l) i =
        some (i + e1.length) := by
  intro e1
  induction e1 with
  | nil =>
    intro e2 c l i _
    have hp : (((c, l).1 == c && (c, l).2 == l) = true) := by simp
    rw [List.nil_append, List.findIdx?]
    simp [hp]
  | cons x t ih =>
    intro e2 c l i hmem
    have hx : x ≠ (c, l) := by intro hxe; exact hmem (by simp [hxe])
    have hp := votePred_false_of_ne c l x hx
    have ht : (c, l) ∉ t := fun hmt => hmem (List.mem_cons_of_mem _ hmt)
    rw [List.cons_append, List.findIdx?]
    simp only [hp, Bool.false_eq_true, if_false]
    rw [ih e2 c l (i + 1) ht]
    simp only [List.length_cons, Option.some.injEq]
    omega

theorem swapRemove_concat {α : Type} (e : List α) (x : α) :
    swapRemove (e ++ [x]) e.length = e := by
  have h1 : (e ++ [x]).getLast? = some x := List.getLast?_concat e
  simp only [swapRemove, h1]
  have hset : (e ++ [x]).set e.length x = e ++ [x] :=
    list_set_self _ _ _ (by simp)
  rw [hset, List.dropLast_concat]

/-! ## C10: lagging_level never underflows -/

/-- Claim C10: `lagging_level` returns `proposer_best_level` minus
`proposer_ledger_tip` when the tip does not exceed the best level, and
0 when the tip is greater, so the `u64` subtraction never underflows. -/
theorem C10_lagging_level_no_underflow (s : BlockChain) :
    (s.proposerLedgerTip ≤ s.proposerBestLevel →
      lagging_level s = s.proposerBestLevel - s.proposerLedgerTip) ∧
    (s.proposerBestLevel < s.proposerLedgerTip → lagging_level s = 0) := by
  constructor
  · intro h
    have : ¬ s.proposerLedgerTip > s.proposerBestLevel := by omega
    simp [lagging_level, this]
  · intro h
    have : s.proposerLedgerTip > s.proposerBestLevel := h
    simp [lagging_level, this]

/-- Concrete instantiation of C10. -/
def sTen : BlockChain :=
  { proposerNodeLevel := fun _ => none, voterNodeLevel := fun _ => none,
    voterNodeChain := fun _ => none, voterTreeLevelCount := fun _ => none,
    proposerTreeLevel := fun _ => none, voterNodeVotedLevel := fun _ => none,
    proposerNodeVote := fun _ => none, proposerLeaderSequence := fun _ => none,
    proposerLedgerOrder := fun _ => none, proposerVoteCount := fun _ => none,
    parentNeighbor := fun _ => none, voteNeighbor := fun _ => none,
    voterParentNeighbor := fun _ => none, transactionRefNeighbor := fun _ => none,
    proposerRefNeighbor := fun _ => none,
    proposerBestLevel := 5, voterBest := [], unreferredTransactions := fun _ => none,
    unreferredProposers := fun _ => none, unconfirmedProposers := fun _ => false,
    proposerLedgerTip := 2, voterLedgerTips := [] }

/-- Witness for C10 at a concrete state with best level 5 and ledger
tip 2. -/
theorem C10_witness : lagging_level sTen = 5 - 2 :=
  (C10_lagging_level_no_underflow sTen).1 (by decide)

/-! ## C9: contains_transaction holds for every inserted block -/

/-- Claim C9: after any successful `insert_block`, the inserted hash
tests positive under `contains_transaction`, whatever the content
variant, because every branch writes the parent-neighbor entry. -/
theorem C9_contains_transaction_after_insert (s : BlockChain) (b : Block)
    (s2 : BlockChain) (h : insert_block s b = some s2) :
    contains_transaction s2 b.hash = true := by
  unfold insert_block at h
  cases hc : b.content with
  | proposer refs txrefs =>
    rw [hc] at h
    simp only [bind, Option.bind_eq_some, Option.some.injEq] at h
    obtain ⟨pl, _, h2⟩ := h
    subst h2
    simp [contains_transaction, fupd]
  | voter vparent votes =>
    rw [hc] at h
    simp only [bind, Option.bind_eq_some, Option.some.injEq] at h
    obtain ⟨vpl, _, vpc, _, ppl, _, best, _, h2⟩ := h
    split at h2 <;> (cases h2; simp [contains_transaction, fupd])
  | transaction =>
    rw [hc] at h
    cases h
    simp [contains_transaction, fupd]

/-- Concrete transaction block for the C9 witness. -/
def bNine : Block := ⟨77, 3, 9, Content.transaction⟩

/-- Witness for C9: insert a transaction block into a concrete state
and observe `contains_transaction` succeed. -/
theorem C9_witness :
    contains_transaction ((insert_block sTen bNine).getD sTen) 77 = true :=
  C9_contains_transaction_after_insert sTen bNine
    ((insert_block sTen bNine).getD sTen) rfl

/-! ## C8: removal of an absent vote pair aborts the merge -/

/-- Claim C8: a removal operand `(false, c, l)` whose pair is absent
from the current value reaches `unreachable!` — modelled as the merge
returning `none` — rather than acting as a no-op. -/
theorem C8_remove_absent_aborts (e : List (Nat × Nat)) (c l : Nat)
    (rest : List (Bool × Nat × Nat)) (opss : List (List (Bool × Nat × Nat)))
    (h : (c, l) ∉ e) :
    vote_vec_full_merge (some e) (((false, c, l) :: rest) :: opss) = none := by
  have hstep : voteOpStep e (false, c, l) = none := by
    simp only [voteOpStep]
    rw [findIdx_none_of_not_mem e c l 0 h]
  unfold vote_vec_full_merge
  simp only [Option.getD_some, List.foldlM]
  have happ : voteOpsApply e ((false, c, l) :: rest) = none := by
    unfold voteOpsApply
    simp [List.foldlM, hstep]
  simp [happ]

/-- Witness for C8: removing `(2, 0)` from `[(1, 0)]` aborts. -/
theorem C8_witness :
    ((2, 0) ∉ ([(1, 0)] : List (Nat × Nat))) ∧
      vote_vec_full_merge (some [(1, 0)]) [[(false, 2, 0)]] = none :=
  ⟨by decide, C8_remove_absent_aborts [(1, 0)] 2 0 [] [] (by decide)⟩

/-! ## C2: the vote-edit merge operator -/

/-- Counterexample to C2 as stated: removing `(1,0)` from
`[(1,0),(2,0),(3,0)]` yields `[(3,0),(2,0)]` — the last entry is
swapped into the removed slot, so the surviving entries `(2,0)` and
`(3,0)` do not keep their original insertion order
(which would give `[(2,0),(3,0)]`). -/
theorem C2_counterexample :
    vote_vec_full_merge (some [(1, 0), (2, 0), (3, 0)]) [[(false, 1, 0)]] =
        some [(3, 0), (2, 0)] ∧
      ([(3, 0), (2, 0)] : List (Nat × Nat)) ≠ [(2, 0), (3, 0)] := by
  constructor
  · rfl
  · decide

/-- Claim C2 (amended): an insertion operand appends the pair only if
absent; a removal operand removes the first occurrence of the pair by
moving the last entry into its place (`swap_remove`), so the surviving
entries keep their original order only when the removed occurrence is
the last entry; the seed operand sequence on an empty key still yields
exactly `[(0,0),(10,0),(3,0)]`. -/
theorem C2_amended_merge_behaviour :
    (∀ (e : List (Nat × Nat)) (c l : Nat), (c, l) ∈ e →
        voteOpStep e (true, c, l) = some e) ∧
    (∀ (e : List (Nat × Nat)) (c l : Nat), (c, l) ∉ e →
        voteOpStep e (true, c, l) = some (e ++ [(c, l)])) ∧
    (∀ (e1 e2 : List (Nat × Nat)) (c l : Nat), (c, l) ∉ e1 →
        voteOpStep (e1 ++ (c, l) :: e2) (false, c, l) =
          some (swapRemove (e1 ++ (c, l) :: e2) e1.length)) ∧
    (∀ (e : List (Nat × Nat)) (c l : Nat), (c, l) ∉ e →
        voteOpStep (e ++ [(c, l)]) (false, c, l) = some e) ∧
    vote_vec_full_merge none
        [[(true, 0, 0)], [(true, 10, 0)], [(true, 5, 0)], [(false, 5, 0)],
          [(true, 3, 0)], [(false, 3, 0)], [(true, 3, 0)]] =
      some [(0, 0), (10, 0), (3, 0)] := by
  refine ⟨?_, ?_, ?_, ?_, rfl⟩
  · intro e c l hmem; simp [voteOpStep, hmem]
  · intro e c l hmem; simp [voteOpStep, hmem]
  · intro e1 e2 c l hmem
    simp only [voteOpStep]
    rw [findIdx_first_occurrence e1 e2 c l 0 hmem]
    simp
  · intro e c l hmem
    simp only [voteOpStep]
    rw [findIdx_first_occurrence e [] c l 0 hmem]
    simp [swapRemove_concat]

/-- Witness for C2 (amended): instantiate the insertion and removal
behaviour at concrete inputs. -/
theorem C2_amended_witness :
    voteOpStep [(4, 4)] (true, 0, 0) = some [(4, 4), (0, 0)] ∧
      voteOpStep [(4, 4), (0, 0)] (false, 0, 0) = some [(4, 4)] :=
  ⟨C2_amended_merge_behaviour.2.1 [(4, 4)] 0 0 (by decide),
    C2_amended_merge_behaviour.2.2.2.1 [(4, 4)] 0 0 (by decide)⟩

/-! ## C6: unreferred/unconfirmed set updates on proposer insert -/

/-- Claim C6: after `insert_block` returns successfully for a proposer
block `b`, the unreferred-proposer set maps `b` to its header
timestamp, no longer contains `b`'s parent nor any hash in its
proposer refs, the unreferred-transaction set no longer contains any of
its transaction refs, and the unconfirmed-proposer set contains `b`.
(The hypotheses that `b` is distinct from its parent and refs reflect
the `insert_block` precondition that every referenced hash is already
in the store, hence distinct from the new block's hash.) -/
theorem C6_unreferred_sets (s : BlockChain) (b : Block) (refs txrefs : List H256)
    (s2 : BlockChain) (hc : b.content = Content.proposer refs txrefs)
    (hins : insert_block s b = some s2)
    (hne : b.hash ≠ b.parent) (hnr : b.hash ∉ refs) :
    s2.unreferredProposers b.hash = some b.timestamp ∧
    s2.unreferredProposers b.parent = none ∧
    (∀ r ∈ refs, s2.unreferredProposers r = none) ∧
    (∀ t ∈ txrefs, s2.unreferredTransactions t = none) ∧
    s2.unconfirmedProposers b.hash = true := by
  unfold insert_block at hins
  rw [hc] at hins
  simp only [bind, Option.bind_eq_some, Option.some.injEq] at hins
  obtain ⟨pl, _, h2⟩ := hins
  subst h2
  refine ⟨?_, ?_, ?_, ?_, ?_⟩
  · have hcond : ¬ (b.hash = b.parent ∨ b.hash ∈ refs) := by
      intro hor; rcases hor with h1 | h1
      · exact hne h1
      · exact hnr h1
    simp [hcond, fupd]
  · simp
  · intro r hr; simp [hr]
  · intro t ht; simp [ht]
  · simp

/-- Concrete state and proposer block for the C6 witness: parent 3 is
at proposer level 0 and both 3 and 9 start unreferred; 8 starts as an
unreferred transaction. -/
def sSix : BlockChain :=
  { sTen with
    proposerNodeLevel := fun h => if h = 3 then some 0 else none,
    unreferredProposers := fun h => if h = 3 ∨ h = 9 then some 1 else none,
    unreferredTransactions := fun h => if h = 8 then some 2 else none }

/-- The proposer block of the C6 witness. -/
def bSix : Block := ⟨5, 3, 42, Content.proposer [9] [8]⟩

/-- Target state for the C6 witness. -/
def sSixPost : BlockChain := (insert_block sSix bSix).getD sSix

/-- Witness for C6: insert the concrete proposer block and sample every
conclusion of the claim. -/
theorem C6_witness :
    sSixPost.unreferredProposers 5 = some 42 ∧
    sSixPost.unreferredProposers 3 = none ∧
    sSixPost.unreferredProposers 9 = none ∧
    sSixPost.unreferredTransactions 8 = none ∧
    sSixPost.unconfirmedProposers 5 = true := by
  have h := C6_unreferred_sets sSix bSix [9] [8] sSixPost rfl rfl
    (by decide) (by decide)
  exact ⟨h.1, h.2.1, h.2.2.1 9 (by decide), h.2.2.2.1 8 (by decide), h.2.2.2.2⟩

/-! ## C4: no leader below the 3/5 vote quorum -/

/-- Total number of main-chain votes recorded on the candidates of a
proposer level (what the statistics pass of `proposer_leader` counts). -/
def totalLevelVotes (s : BlockChain) (level : Nat) : Nat :=
  (((s.proposerTreeLevel level).getD []).map
    (fun b => ((s.proposerNodeVote b).getD []).length)).sum

theorem foldVotes_value (s : BlockChain) :
    ∀ (votes : List (Nat × Nat)) (acc t : Nat), foldVotes s votes acc = some t →
      acc < 65536 → t = (acc + votes.length) % 65536 ∧ t < 65536 := by
  intro votes
  induction votes with
  | nil =>
    intro acc t h hacc
    cases h
    constructor
    · have : acc % 65536 = acc := Nat.mod_eq_of_lt hacc
      simpa using this.symm
    · exact hacc
  | cons v rest ih =>
    intro acc t h hacc
    obtain ⟨c, vl⟩ := v
    unfold foldVotes at h
    simp only [bind, Option.bind_eq_some] at h
    obtain ⟨best, _, n, _, h3⟩ := h
    have hmod : (acc + 1) % 65536 < 65536 := Nat.mod_lt _ (by omega)
    obtain ⟨ht, hlt⟩ := ih ((acc + 1) % 65536) t h3 hmod
    refine ⟨?_, hlt⟩
    rw [ht, Nat.mod_add_mod]
    simp only [List.length_cons]
    congr 1
    omega

theorem collectVoteStats_value (s : BlockChain) :
    ∀ (blocks : List H256) (acc t : Nat), collectVoteStats s blocks acc = some t →
      acc < 65536 →
      t = (acc + (blocks.map (fun b => ((s.proposerNodeVote b).getD []).length)).sum) % 65536 := by
  intro blocks
  induction blocks with
  | nil =>
    intro acc t h hacc
    cases h
    simp [Nat.mod_eq_of_lt hacc]
  | cons b rest ih =>
    intro acc t h hacc
    unfold collectVoteStats at h
    simp only [bind, Option.bind_eq_some] at h
    obtain ⟨acc2, h1, h2⟩ := h
    obtain ⟨hval, hlt⟩ := foldVotes_value s _ acc acc2 h1 hacc
    have := ih acc2 t h2 hlt
    rw [this, hval, Nat.mod_add_mod]
    simp only [List.map_cons, List.sum_cons]
    congr 1
    omega

/-- Claim C4: for every proposer level and every quantile, leader
election returns "no leader" whenever the total number of main-chain
votes on the level's candidates is at most
`voter_chains * 3 / 5` in the `u16` arithmetic of the source. -/
theorem C4_no_leader_below_quorum (cfg : Config) (orc : Oracle) (s : BlockChain)
    (level : Nat) (q : ℚ) (r : Option H256)
    (hres : proposer_leader cfg orc s level q = some r)
    (hle : totalLevelVotes s level ≤ cfg.voterChains * 3 % 65536 / 5) :
    r = none := by
  unfold proposer_leader at hres
  simp only [bind, Option.bind_eq_some] at hres
  obtain ⟨blocks, hblocks, total, htotal, hif⟩ := hres
  have hguard : cfg.voterChains * 3 % 65536 / 5 < 65536 := by
    have : cfg.voterChains * 3 % 65536 < 65536 := Nat.mod_lt _ (by omega)
    omega
  have hsum :
      totalLevelVotes s level =
        (blocks.map (fun b => ((s.proposerNodeVote b).getD []).length)).sum := by
    unfold totalLevelVotes
    rw [hblocks]
    rfl
  have htv := collectVoteStats_value s blocks 0 total htotal (by omega)
  have htot_eq : total = totalLevelVotes s level := by
    rw [htv, hsum, Nat.zero_add]
    exact Nat.mod_eq_of_lt (by omega)
  split at hif
  · exact absurd hif (by simp)
  · have hr : r = if total > cfg.voterChains * 3 % 65536 / 5 then
        leaderSelectionPhase cfg orc level q blocks else none := by
      exact (Option.some.injEq _ _ ▸ hif).symm
    rw [hr]
    have : ¬ total > cfg.voterChains * 3 % 65536 / 5 := by
      rw [htot_eq]; omega
    simp [this]

/-- Concrete configuration for the C4 witness: 5 voter chains. -/
def cfgFour : Config := ⟨5, 0, [], 1, 1, (2 : ℚ) / 5⟩

/-- Oracle for the witnesses (the claims proved here hold for every
oracle). -/
def orcW : Oracle := ⟨fun _ _ _ => 0, 1⟩

/-- Concrete state for the C4 witness: two candidate blocks at level 0,
no votes recorded. -/
def sFour : BlockChain :=
  { sTen with proposerTreeLevel := fun l => if l = 0 then some [1, 2] else none }

/-- Witness for C4: with zero votes and quorum 3, the election
evaluates and the theorem forces "no leader". -/
theorem C4_witness :
    proposer_leader cfgFour orcW sFour 0 1 = some none ∧
      totalLevelVotes sFour 0 ≤ cfgFour.voterChains * 3 % 65536 / 5 ∧
      (none : Option H256) = none :=
  ⟨rfl, by decide, C4_no_leader_below_quorum cfgFour orcW sFour 0 1 none rfl (by decide)⟩

/-! ## C1: position of the leader in a reconfirmed level's order -/

theorem ledger_dfs_empty_stack (s : BlockChain) (u : H256 → Bool) (fuel : Nat)
    (acc : List H256) : ledger_dfs s u fuel [] acc = some acc := by
  cases fuel <;> rfl

theorem ledger_dfs_extends (s : BlockChain) (u : H256 → Bool) :
    ∀ (fuel : Nat) (stack acc l : List H256),
      ledger_dfs s u fuel stack acc = some l → ∃ t, acc ++ t = l := by
  intro fuel
  induction fuel with
  | zero =>
    intro stack acc l h
    cases stack with
    | nil => cases h; exact ⟨[], List.append_nil _⟩
    | cons a t => exact absurd h (by simp [ledger_dfs])
  | succ f ih =>
    intro stack acc l h
    cases stack with
    | nil => cases h; exact ⟨[], List.append_nil _⟩
    | cons top rest =>
      rw [ledger_dfs] at h
      by_cases hu : u top = true
      · rw [if_pos hu] at h
        cases hrefs : s.proposerRefNeighbor top with
        | none => rw [hrefs] at h; exact absurd h (by simp)
        | some refs =>
          rw [hrefs] at h
          obtain ⟨t, ht⟩ := ih _ _ _ h
          exact ⟨[top] ++ t, by rw [← List.append_assoc]; exact ht⟩
      · rw [if_neg hu] at h
        exact ih _ _ _ h

theorem dedup_filter_concat :
    ∀ (xs : List H256) (u : H256 → Bool) (x : H256), u x = true → x ∉ xs →
      (dedup_filter u (xs ++ [x])).1 = (dedup_filter u xs).1 ++ [x] := by
  intro xs
  induction xs with
  | nil =>
    intro u x hu _
    simp [dedup_filter, hu]
  | cons h t ih =>
    intro u x hu hmem
    have hxh : x ≠ h := fun hxe => hmem (by simp [hxe])
    have hxt : x ∉ t := fun hmt => hmem (List.mem_cons_of_mem _ hmt)
    by_cases huh : u h = true
    · have hux : (fun y => if y = h then false else u y) x = true := by
        simp [hxh, hu]
      simp only [List.cons_append, dedup_filter, huh, if_true]
      simp only [List.append_eq]
      rw [ih (fun y => if y = h then false else u y) x hux hxt]
    · have huh2 : u h = false := by
        rcases Bool.eq_false_or_eq_true (u h) with h1 | h1
        · exact absurd h1 huh
        · exact h1
      simp only [List.cons_append, dedup_filter, huh2]
      simp only [Bool.false_eq_true, if_false]
      exact ih u x hu hxt

/-- Counterexample state for C1: the leader 1 refers to the unconfirmed
block 2. -/
def sCxOne : BlockChain :=
  { sTen with
    proposerRefNeighbor := fun h =>
      if h = 1 then some [2] else if h = 2 then some [] else none }

/-- Unconfirmed set of the C1 counterexample: both 1 and 2. -/
def unconfCx : H256 → Bool := fun h => h == 1 || h == 2

/-- Counterexample to C1 as stated: reconfirming a level whose leader
is 1 (which refers to the unconfirmed block 2) stores the ledger order
`[2, 1]` — the first element is the referred block 2, not the leader. -/
theorem C1_counterexample :
    (reconfirm_level_order sCxOne unconfCx 1 10).map Prod.fst = some [2, 1] ∧
      ¬ (([2, 1] : List H256).head? = some 1) :=
  ⟨rfl, by decide⟩

/-- Claim C1 (amended): the ledger-order list written for a level by
the reconfirmation phase has the leader as its LAST element (the leader
is the DFS root: appended first, last after the reversal, and retained
by the dedup filter), provided the traversal visits the leader exactly
once — which holds whenever the proposer-ref graph is acyclic, in
particular in every state produced by `insert_block` alone. -/
theorem C1_amended_leader_last (s : BlockChain) (unconf : H256 → Bool)
    (leader : H256) (fuel : Nat) (l : List H256) (r : List H256 × (H256 → Bool))
    (hdfs : ledger_dfs s unconf fuel [leader] [] = some l)
    (hcount : l.count leader = 1)
    (hrec : reconfirm_level_order s unconf leader fuel = some r) :
    r.1.getLast? = some leader := by
  unfold reconfirm_level_order at hrec
  rw [hdfs] at hrec
  simp only [bind, Option.bind, Option.some.injEq] at hrec
  cases fuel with
  | zero => exact absurd hdfs (by simp [ledger_dfs])
  | succ f =>
    rw [ledger_dfs] at hdfs
    by_cases hu : unconf leader = true
    · rw [if_pos hu] at hdfs
      cases hrefs : s.proposerRefNeighbor leader with
      | none => rw [hrefs] at hdfs; exact absurd hdfs (by simp)
      | some refs =>
        rw [hrefs] at hdfs
        obtain ⟨rest, hl⟩ := ledger_dfs_extends s unconf f _ _ _ hdfs
        have hl2 : l = leader :: rest := by simpa using hl.symm
        subst hl2
        have hnr : leader ∉ rest := by
          rw [List.count_cons_self] at hcount
          exact List.count_eq_zero.1 (by omega)
        have hrev : (leader :: rest).reverse = rest.reverse ++ [leader] :=
          List.reverse_cons leader rest
        have hnrr : leader ∉ rest.reverse := by
          rw [List.mem_reverse]; exact hnr
        have hd := dedup_filter_concat rest.reverse unconf leader hu hnrr
        rw [← hrec, hrev, hd]
        exact List.getLast?_concat _
    · rw [if_neg hu] at hdfs
      rw [ledger_dfs_empty_stack] at hdfs
      cases hdfs
      simp at hcount

/-- State for the C1 amended witness: the leader 1 has no refs. -/
def sOne : BlockChain :=
  { sTen with proposerRefNeighbor := fun h => if h = 1 then some [] else none }

/-- Unconfirmed set for the C1 amended witness. -/
def unconfOne : H256 → Bool := fun h => h == 1

/-- The order/set pair the reconfirmation computes in the C1 witness. -/
def rOne : List H256 × (H256 → Bool) :=
  dedup_filter unconfOne (([1] : List H256).reverse)

/-- Witness for C1 (amended): a singleton traversal stores `[1]` with
the leader last. -/
theorem C1_amended_witness : rOne.1.getLast? = some 1 :=
  C1_amended_leader_last sOne unconfOne 1 2 [1] rOne rfl (by decide) rfl

/-! ## C7: unvoted_proposer picks the top-voted block per level -/

theorem bestVoteScan_spec (s : BlockChain) :
    ∀ (l : List H256) (bh : H256),
      List.Sorted (· ≤ ·) l → (∀ x ∈ l, bh ≤ x) →
      ∃ h, bestVoteScan s l (some (bh, vcount s bh)) = some (h, vcount s h) ∧
        (h = bh ∨ h ∈ l) ∧
        vcount s bh ≤ vcount s h ∧ (vcount s bh = vcount s h → h = bh) ∧
        ∀ b ∈ l, vcount s b ≤ vcount s h ∧ (vcount s b = vcount s h → h ≤ b) := by
  intro l
  induction l with
  | nil =>
    intro bh _ _
    refine ⟨bh, rfl, Or.inl rfl, Nat.le_refl _, fun _ => rfl, by simp⟩
  | cons x rest ih =>
    intro bh hsort hble
    have hsrest : List.Sorted (· ≤ ·) rest := (List.sorted_cons.1 hsort).2
    have hxrest : ∀ y ∈ rest, x ≤ y := (List.sorted_cons.1 hsort).1
    by_cases hlt : vcount s bh < vcount s x
    · have hscan : bestVoteScan s (x :: rest) (some (bh, vcount s bh)) =
          bestVoteScan s rest (some (x, vcount s x)) := by
        simp [bestVoteScan, hlt]
      obtain ⟨h, hres, hmem, hle, htie, hall⟩ := ih x hsrest hxrest
      refine ⟨h, by rw [hscan]; exact hres, ?_, ?_, ?_, ?_⟩
      · rcases hmem with h1 | h1
        · exact Or.inr (h1 ▸ List.mem_cons_self x rest)
        · exact Or.inr (List.mem_cons_of_mem _ h1)
      · omega
      · omega
      · intro b hb
        rcases List.mem_cons.1 hb with h1 | h1
        · subst h1
          refine ⟨hle, fun he => ?_⟩
          rw [htie he]
        · exact hall b h1
    · have hscan : bestVoteScan s (x :: rest) (some (bh, vcount s bh)) =
          bestVoteScan s rest (some (bh, vcount s bh)) := by
        simp [bestVoteScan, hlt]
      have hbrest : ∀ y ∈ rest, bh ≤ y := fun y hy =>
        hble y (List.mem_cons_of_mem _ hy)
      obtain ⟨h, hres, hmem, hle, htie, hall⟩ := ih bh hsrest hbrest
      refine ⟨h, by rw [hscan]; exact hres, ?_, hle, htie, ?_⟩
      · rcases hmem with h1 | h1
        · exact Or.inl h1
        · exact Or.inr (List.mem_cons_of_mem _ h1)
      · intro b hb
        rcases List.mem_cons.1 hb with h1 | h1
        · subst h1
          refine ⟨by omega, fun he => ?_⟩
          have hbe : vcount s bh = vcount s h := by omega
          rw [htie hbe]
          exact hble b (List.mem_cons_self _ _)
        · exact hall b h1

theorem unvotedLevel_spec (s : BlockChain) (lv : Nat) (h : H256)
    (hres : unvotedLevel s lv = some h) :
    h ∈ (s.proposerTreeLevel lv).getD [] ∧
      ∀ b ∈ (s.proposerTreeLevel lv).getD [],
        vcount s b ≤ vcount s h ∧ (vcount s b = vcount s h → h ≤ b) := by
  unfold unvotedLevel at hres
  simp only [bind, Option.bind_eq_some] at hres
  obtain ⟨blocks, hblocks, hmatch⟩ := hres
  have hperm : (List.insertionSort (· ≤ ·) blocks).Perm blocks :=
    List.perm_insertionSort (· ≤ ·) blocks
  have hsorted : List.Sorted (· ≤ ·) (List.insertionSort (· ≤ ·) blocks) :=
    List.sorted_insertionSort (· ≤ ·) blocks
  rw [hblocks]
  simp only [Option.getD_some]
  cases hs : List.insertionSort (· ≤ ·) blocks with
  | nil =>
    rw [hs] at hmatch
    exact absurd hmatch (by simp [bestVoteScan])
  | cons x rest =>
    rw [hs] at hmatch hperm hsorted
    have hsrest : List.Sorted (· ≤ ·) rest := (List.sorted_cons.1 hsorted).2
    have hxrest : ∀ y ∈ rest, x ≤ y := (List.sorted_cons.1 hsorted).1
    obtain ⟨h2, hscan, hmem, hxle, hxtie, hall⟩ :=
      bestVoteScan_spec s rest x hsrest hxrest
    have hstep : bestVoteScan s (x :: rest) none =
        bestVoteScan s rest (some (x, vcount s x)) := by
      simp [bestVoteScan]
    rw [hstep, hscan] at hmatch
    simp only [Option.some.injEq] at hmatch
    have hh : h = h2 := by cases hmatch; rfl
    subst hh
    have hmem2 : h ∈ x :: rest := by
      rcases hmem with h1 | h1
      · exact h1 ▸ List.mem_cons_self _ _
      · exact List.mem_cons_of_mem _ h1
    constructor
    · exact hperm.mem_iff.1 hmem2
    · intro b hb
      have hbs : b ∈ x :: rest := hperm.mem_iff.2 hb
      rcases List.mem_cons.1 hbs with h1 | h1
      · subst h1
        refine ⟨hxle, fun he => ?_⟩
        rw [hxtie he]
      · exact hall b h1

theorem unvotedLoop_spec (s : BlockChain) :
    ∀ (levels : List Nat) (out : List H256), unvotedLoop s levels = some out →
      out.length = levels.length ∧
      ∀ (i : Nat) (hi : i < out.length) (hl : i < levels.length),
        unvotedLevel s (levels.get ⟨i, hl⟩) = some (out.get ⟨i, hi⟩) := by
  intro levels
  induction levels with
  | nil =>
    intro out h
    cases h
    exact ⟨rfl, by intro i hi; simp at hi⟩
  | cons lv rest ih =>
    intro out h
    unfold unvotedLoop at h
    simp only [bind, Option.bind_eq_some, Option.some.injEq] at h
    obtain ⟨b, hb, r, hr, hout⟩ := h
    subst hout
    obtain ⟨hlen, hidx⟩ := ih r hr
    refine ⟨by simp [hlen], ?_⟩
    intro i hi hl
    cases i with
    | zero => simpa using hb
    | succ j =>
      have hj : j < r.length := by simpa using hi
      have hjl : j < rest.length := by simpa using hl
      simpa using hidx j hj hjl

/-- Claim C7: for a voter tip and proposer parent present in the store,
`unvoted_proposer` returns one proposer hash per level in
`(deepest_voted_level(tip), level(parent)]`, namely the block at that
level with the highest cumulative vote count, with ties broken by the
smaller hash (the scan runs over the hash-sorted list and replaces only
on a strictly larger count). -/
theorem C7_unvoted_proposer (s : BlockChain) (tip pp : H256) (first last : Nat)
    (out : List H256)
    (h1 : s.voterNodeVotedLevel tip = some first)
    (h2 : s.proposerNodeLevel pp = some last)
    (h3 : unvoted_proposer s tip pp = some out) :
    out.length = last - first ∧
    ∀ (i : Nat) (hi : i < out.length),
      out.get ⟨i, hi⟩ ∈ (s.proposerTreeLevel (first + 1 + i)).getD [] ∧
      ∀ b ∈ (s.proposerTreeLevel (first + 1 + i)).getD [],
        vcount s b ≤ vcount s (out.get ⟨i, hi⟩) ∧
        (vcount s b = vcount s (out.get ⟨i, hi⟩) → out.get ⟨i, hi⟩ ≤ b) := by
  unfold unvoted_proposer at h3
  rw [h1, h2] at h3
  simp only [bind, Option.bind, Option.some.injEq] at h3
  obtain ⟨hlen, hidx⟩ := unvotedLoop_spec s _ out h3
  have hrl : (List.range' (first + 1) (last - first)).length = last - first :=
    List.length_range' _ _ _
  refine ⟨by rw [hlen, hrl], ?_⟩
  intro i hi
  have hil : i < (List.range' (first + 1) (last - first)).length := by
    rw [hrl]; rw [hlen, hrl] at hi; exact hi
  have hget : (List.range' (first + 1) (last - first)).get ⟨i, hil⟩ = first + 1 + i := by
    have hg := List.getElem_range' i hil
    simp only [List.get_eq_getElem, hg]
    omega
  have := hidx i hi hil
  rw [hget] at this
  exact unvotedLevel_spec s (first + 1 + i) _ this

/-- Concrete state for the C7 witness: voter tip 100 has deepest voted
level 0, proposer parent 200 is at level 1, level 1 holds blocks 5 and
3 with equal vote count 7. -/
def sSeven : BlockChain :=
  { sTen with
    voterNodeVotedLevel := fun h => if h = 100 then some 0 else none,
    proposerNodeLevel := fun h => if h = 200 then some 1 else none,
    proposerTreeLevel := fun l => if l = 1 then some [5, 3] else none,
    proposerVoteCount := fun h => if h = 5 then some 7 else if h = 3 then some 7 else none }

/-- Witness for C7: the tie between blocks 5 and 3 at level 1 is broken
toward the smaller hash 3. -/
theorem C7_witness :
    unvoted_proposer sSeven 100 200 = some [3] ∧
      ([3] : List H256).length = 1 - 0 ∧
      (3 : H256) ∈ (sSeven.proposerTreeLevel (0 + 1 + 0)).getD [] := by
  have h := C7_unvoted_proposer sSeven 100 200 0 1 [3] rfl rfl rfl
  exact ⟨rfl, h.1, (h.2 0 (by decide)).1⟩

/-! ## Frame lemmas about the phases of update_ledger -/

theorem applyVoteMerge_eq (s : BlockChain) (key : H256) (ops : List (Bool × Nat × Nat))
    (s2 : BlockChain) (h : applyVoteMerge s key ops = some s2) :
    ∃ newv, s2 = { s with proposerNodeVote := fupd s.proposerNodeVote key (some newv) } := by
  unfold applyVoteMerge at h
  simp only [bind, Option.bind_eq_some, Option.some.injEq] at h
  obtain ⟨newv, _, h2⟩ := h
  exact ⟨newv, h2.symm⟩

theorem applyDiffVotes_fields (pol : Bool) (c : Nat) :
    ∀ (votes : List (H256 × Nat)) (s : BlockChain) (r : URange)
      (s2 : BlockChain) (r2 : URange),
      applyDiffVotes pol c s r votes = some (s2, r2) →
      s2.proposerTreeLevel = s.proposerTreeLevel ∧
      s2.proposerLeaderSequence = s.proposerLeaderSequence ∧
      s2.voterBest = s.voterBest ∧
      s2.voterNodeLevel = s.voterNodeLevel ∧
      s2.voterLedgerTips = s.voterLedgerTips := by
  intro votes
  induction votes with
  | nil =>
    intro s r s2 r2 h
    cases h
    exact ⟨rfl, rfl, rfl, rfl, rfl⟩
  | cons v rest ih =>
    intro s r s2 r2 h
    obtain ⟨ph, vl⟩ := v
    unfold applyDiffVotes at h
    simp only [bind, Option.bind_eq_some] at h
    obtain ⟨sm, hsm, plevel, _, hrec⟩ := h
    obtain ⟨newv, hsv⟩ := applyVoteMerge_eq s ph _ sm hsm
    subst hsv
    have hres := ih _ _ _ _ hrec
    exact hres

theorem phase1_fields (cfg : Config) :
    ∀ (chains : List Nat) (s : BlockChain) (r : URange) (fuel : Nat)
      (s2 : BlockChain) (r2 : URange),
      phase1 cfg s r chains fuel = some (s2, r2) →
      s2.proposerTreeLevel = s.proposerTreeLevel ∧
      s2.proposerLeaderSequence = s.proposerLeaderSequence ∧
      s2.voterBest = s.voterBest ∧
      s2.voterNodeLevel = s.voterNodeLevel := by
  intro chains
  induction chains with
  | nil =>
    intro s r fuel s2 r2 h
    cases h
    exact ⟨rfl, rfl, rfl, rfl⟩
  | cons c rest ih =>
    intro s r fuel s2 r2 h
    unfold phase1 at h
    simp only [bind, Option.bind_eq_some] at h
    obtain ⟨fromT, _, best, _, diff, _, sr2, h2, sr3, h3, hrec⟩ := h
    obtain ⟨ha1, ha2, ha3, ha4, _⟩ :=
      applyDiffVotes_fields false c diff.2 _ _ sr2.1 sr2.2 h2
    obtain ⟨hb1, hb2, hb3, hb4, _⟩ :=
      applyDiffVotes_fields true c diff.1 sr2.1 sr2.2 sr3.1 sr3.2 h3
    obtain ⟨hc1, hc2, hc3, hc4⟩ := ih sr3.1 sr3.2 fuel s2 r2 hrec
    exact ⟨hc1.trans (hb1.trans ha1), hc2.trans (hb2.trans ha2),
      hc3.trans (hb3.trans ha3), hc4.trans (hb4.trans ha4)⟩

theorem phase2_fields (cfg : Config) (orc : Oracle) :
    ∀ (lvls : List Nat) (s : BlockChain) (cb : Option Nat)
      (s2 : BlockChain) (cb2 : Option Nat),
      phase2 cfg orc s cb lvls = some (s2, cb2) →
      s2.proposerTreeLevel = s.proposerTreeLevel ∧
      s2.voterBest = s.voterBest ∧
      s2.voterNodeLevel = s.voterNodeLevel ∧
      s2.voterLedgerTips = s.voterLedgerTips ∧
      s2.proposerLedgerTip = s.proposerLedgerTip := by
  intro lvls
  induction lvls with
  | nil =>
    intro s cb s2 cb2 h
    cases h
    exact ⟨rfl, rfl, rfl, rfl, rfl⟩
  | cons lv rest ih =>
    intro s cb s2 cb2 h
    unfold phase2 at h
    simp only [bind, Option.bind_eq_some] at h
    obtain ⟨nc, _, nd, _, hrec⟩ := h
    split at hrec <;> split at hrec
    all_goals {
      have hres := ih _ _ _ _ hrec
      exact hres }

theorem phase3Deconfirm_fields :
    ∀ (lvls : List Nat) (s : BlockChain) (removed : List H256)
      (s2 : BlockChain) (removed2 : List H256),
      phase3Deconfirm s lvls removed = some (s2, removed2) →
      s2.proposerTreeLevel = s.proposerTreeLevel ∧
      s2.proposerLeaderSequence = s.proposerLeaderSequence ∧
      s2.voterBest = s.voterBest ∧
      s2.voterNodeLevel = s.voterNodeLevel ∧
      s2.voterLedgerTips = s.voterLedgerTips := by
  intro lvls
  induction lvls with
  | nil =>
    intro s removed s2 removed2 h
    cases h
    exact ⟨rfl, rfl, rfl, rfl, rfl⟩
  | cons lv rest ih =>
    intro s removed s2 removed2 h
    unfold phase3Deconfirm at h
    simp only [bind, Option.bind_eq_some] at h
    obtain ⟨orig, _, hrec⟩ := h
    have hres := ih _ _ _ _ hrec
    exact hres

theorem reconfirmLoop_fields (s0 : BlockChain) (dfsFuel : Nat) :
    ∀ (fuel : Nat) (s : BlockChain) (lv : Nat) (added : List H256)
      (s2 : BlockChain) (added2 : List H256),
      reconfirmLoop s0 dfsFuel fuel s lv added = some (s2, added2) →
      s2.proposerTreeLevel = s.proposerTreeLevel ∧
      s2.proposerLeaderSequence = s.proposerLeaderSequence ∧
      s2.voterBest = s.voterBest ∧
      s2.voterNodeLevel = s.voterNodeLevel ∧
      s2.voterLedgerTips = s.voterLedgerTips := by
  intro fuel
  induction fuel with
  | zero =>
    intro s lv added s2 added2 h
    exact absurd h (by simp [reconfirmLoop])
  | succ f ih =>
    intro s lv added s2 added2 h
    rw [reconfirmLoop] at h
    cases hld : s.proposerLeaderSequence lv with
    | none =>
      rw [hld] at h
      cases h
      exact ⟨rfl, rfl, rfl, rfl, rfl⟩
    | some leader =>
      rw [hld] at h
      simp only [bind, Option.bind_eq_some] at h
      obtain ⟨r, _, hrec⟩ := h
      have hres := ih _ _ _ _ _ hrec
      exact hres

/-! ## C3: the leader sequence points into the proposer level index -/

theorem appendUniqueOne_mem_of_mem (x : H256) :
    ∀ (hs acc : List H256), x ∈ acc → x ∈ appendUniqueOne acc hs := by
  intro hs
  induction hs with
  | nil => intro acc hx; exact hx
  | cons h t ih =>
    intro acc hx
    unfold appendUniqueOne at ih ⊢
    simp only [List.foldl_cons]
    by_cases hmem : h ∈ acc
    · rw [if_pos hmem]; exact ih acc hx
    · rw [if_neg hmem]
      exact ih _ (List.mem_append.2 (Or.inl hx))

theorem h256_merge_mem_of_mem (x : H256) (existing : Option (List H256)) :
    ∀ (ops : List (List H256)), x ∈ existing.getD [] →
      x ∈ h256_vec_append_merge existing ops := by
  unfold h256_vec_append_merge
  generalize existing.getD [] = acc
  intro ops
  induction ops generalizing acc with
  | nil => intro hx; exact hx
  | cons o rest ih =>
    intro hx
    simp only [List.foldl_cons]
    exact ih _ (appendUniqueOne_mem_of_mem x o acc hx)

theorem tieBreak_cases (eps m1 bl : ℚ) (b : H256) (lead : Option H256) :
    tieBreak eps m1 bl b lead = lead ∨ tieBreak eps m1 bl b lead = some b := by
  cases lead with
  | none => exact Or.inl rfl
  | some cur =>
    by_cases hc : |m1 - bl| < eps ∧ b < cur
    · right; simp [tieBreak, hc]
    · left; simp [tieBreak, hc]

theorem selectLeader_mem (lcb : H256 → ℚ) (eps : ℚ) :
    ∀ (l : List H256) (m : ℚ) (lead : Option H256) (m2 : ℚ) (h : H256),
      selectLeader lcb eps l m lead = (m2, some h) → lead = some h ∨ h ∈ l := by
  intro l
  induction l with
  | nil =>
    intro m lead m2 h hsel
    cases hsel
    exact Or.inl rfl
  | cons b rest ih =>
    intro m lead m2 h hsel
    rw [selectLeader] at hsel
    rcases ih _ _ _ _ hsel with hcase | hcase
    · rcases tieBreak_cases eps (if m < lcb b then lcb b else m) (lcb b) b
        (if m < lcb b then some b else lead) with ht | ht
      · rw [ht] at hcase
        by_cases hm : m < lcb b
        · rw [if_pos hm] at hcase
          cases hcase
          exact Or.inr (List.mem_cons_self _ _)
        · rw [if_neg hm] at hcase
          exact Or.inl hcase
      · rw [ht] at hcase
        cases hcase
        exact Or.inr (List.mem_cons_self _ _)
    · exact Or.inr (List.mem_cons_of_mem _ hcase)

theorem leaderCheck_eq (lcb : H256 → ℚ) (eps m rem : ℚ) (cur : H256) :
    ∀ (l : List H256) (h : H256), leaderCheck lcb eps m rem cur l = some h → h = cur := by
  intro l
  induction l with
  | nil => intro h hc; cases hc; rfl
  | cons p rest ih =>
    intro h hc
    rw [leaderCheck] at hc
    split at hc
    · cases hc
    · split at hc
      · cases hc
      · exact ih h hc

theorem leaderSelectionPhase_mem (cfg : Config) (orc : Oracle) (level : Nat)
    (q : ℚ) (blocks : List H256) (h : H256)
    (hres : leaderSelectionPhase cfg orc level q blocks = some h) : h ∈ blocks := by
  simp only [leaderSelectionPhase] at hres
  split at hres
  · cases hres
  · split at hres
    · cases hres
    · rename_i cur hcur
      have h1 := leaderCheck_eq _ _ _ _ cur blocks h hres
      subst h1
      rcases selectLeader_mem _ _ blocks 0 none _ _ (by
        rw [← hcur]) with hc | hc
      · cases hc
      · exact hc

theorem proposer_leader_mem (cfg : Config) (orc : Oracle) (s : BlockChain)
    (level : Nat) (q : ℚ) (h : H256)
    (hres : proposer_leader cfg orc s level q = some (some h)) :
    ∃ bl, s.proposerTreeLevel level = some bl ∧ h ∈ bl := by
  unfold proposer_leader at hres
  simp only [bind, Option.bind_eq_some] at hres
  obtain ⟨blocks, hblocks, total, _, hif⟩ := hres
  split at hif
  · cases hif
  · simp only [Option.some.injEq] at hif
    refine ⟨blocks, hblocks, ?_⟩
    split at hif
    · exact leaderSelectionPhase_mem cfg orc level q blocks h hif
    · cases hif

/-- The invariant of claim C3: every entry of the leader sequence is a
member of the proposer level index for its level. -/
def LeaderInLevelIndex (s : BlockChain) : Prop :=
  ∀ (L : Nat) (h : H256), s.proposerLeaderSequence L = some h →
    h ∈ (s.proposerTreeLevel L).getD []

theorem phase2_inv (cfg : Config) (orc : Oracle) :
    ∀ (lvls : List Nat) (s : BlockChain) (cb : Option Nat)
      (s2 : BlockChain) (cb2 : Option Nat),
      LeaderInLevelIndex s → phase2 cfg orc s cb lvls = some (s2, cb2) →
      LeaderInLevelIndex s2 := by
  intro lvls
  induction lvls with
  | nil =>
    intro s cb s2 cb2 hinv h
    cases h
    exact hinv
  | cons lv rest ih =>
    intro s cb s2 cb2 hinv h
    unfold phase2 at h
    simp only [bind, Option.bind_eq_some] at h
    obtain ⟨nc, hnc, nd, hnd, hrec⟩ := h
    have hmem : ∀ (x : Option H256), x = nc ∨ x = nd →
        ∀ h2, x = some h2 → h2 ∈ (s.proposerTreeLevel lv).getD [] := by
      intro x hx h2 hx2
      subst hx2
      rcases hx with h1 | h1
      · obtain ⟨bl, hbl, hm⟩ := proposer_leader_mem cfg orc s lv _ h2 (h1 ▸ hnc)
        rw [hbl]; exact hm
      · obtain ⟨bl, hbl, hm⟩ := proposer_leader_mem cfg orc s lv _ h2 (h1 ▸ hnd)
        rw [hbl]; exact hm
    have hupd : ∀ nl : Option H256, nl = nc ∨ nl = nd →
        LeaderInLevelIndex
          { s with proposerLeaderSequence := fupd s.proposerLeaderSequence lv nl } := by
      intro nl hnl L h2 hL
      by_cases hLlv : L = lv
      · subst hLlv
        have hL2 : fupd s.proposerLeaderSequence L nl L = some h2 := hL
        rw [fupd_same] at hL2
        rcases hnl with h1 | h1
        · exact hmem nc (Or.inl rfl) h2 (h1 ▸ hL2)
        · exact hmem nd (Or.inr rfl) h2 (h1 ▸ hL2)
      · have hL2 : fupd s.proposerLeaderSequence lv nl L = some h2 := hL
        rw [fupd_ne _ _ _ _ hLlv] at hL2
        exact hinv L h2 hL2
    cases hex : s.proposerLeaderSequence lv with
    | some ex =>
      simp only [hex, Option.isSome_some, if_true] at hrec
      split at hrec
      · have hres := ih _ _ _ _ (hupd nd (Or.inr rfl)) hrec
        exact hres
      · exact ih _ _ _ _ hinv hrec
    | none =>
      simp only [hex, Option.isSome_none, Bool.false_eq_true, if_false] at hrec
      split at hrec
      · have hres := ih _ _ _ _ (hupd nc (Or.inl rfl)) hrec
        exact hres
      · exact ih _ _ _ _ hinv hrec

theorem insert_block_inv (s : BlockChain) (b : Block) (s2 : BlockChain)
    (hinv : LeaderInLevelIndex s) (h : insert_block s b = some s2) :
    LeaderInLevelIndex s2 := by
  unfold insert_block at h
  cases hc : b.content with
  | proposer refs txrefs =>
    rw [hc] at h
    simp only [bind, Option.bind_eq_some, Option.some.injEq] at h
    obtain ⟨pl, hpl, h2⟩ := h
    subst h2
    intro L h2 hL
    have hL2 : s.proposerLeaderSequence L = some h2 := hL
    have hmem := hinv L h2 hL2
    by_cases hLp : L = pl + 1
    · show h2 ∈ (fupd s.proposerTreeLevel (pl + 1)
        (some (h256_vec_append_merge (s.proposerTreeLevel (pl + 1)) [[b.hash]])) L).getD []
      rw [hLp, fupd_same]
      simp only [Option.getD_some]
      exact h256_merge_mem_of_mem h2 _ _ (hLp ▸ hmem)
    · show h2 ∈ (fupd s.proposerTreeLevel (pl + 1)
        (some (h256_vec_append_merge (s.proposerTreeLevel (pl + 1)) [[b.hash]])) L).getD []
      rw [fupd_ne _ _ _ _ hLp]
      exact hmem
  | voter vparent votes =>
    rw [hc] at h
    simp only [bind, Option.bind_eq_some, Option.some.injEq] at h
    obtain ⟨vpl, _, vpc, _, ppl, _, best, _, h2⟩ := h
    split at h2 <;> (cases h2; exact fun L h2 hL => hinv L h2 hL)
  | transaction =>
    rw [hc] at h
    cases h
    exact fun L h2 hL => hinv L h2 hL

theorem newChainStep_fields (cfg : Config) (s : BlockChain) (c : Nat)
    (s2 : BlockChain) (h : newChainStep cfg s c = some s2) :
    s2.proposerLeaderSequence = s.proposerLeaderSequence ∧
    s2.proposerTreeLevel = s.proposerTreeLevel := by
  unfold newChainStep at h
  simp only [bind, Option.bind_eq_some, Option.some.injEq] at h
  obtain ⟨vg, _, nv, _, best, _, h2⟩ := h
  subst h2
  exact ⟨rfl, rfl⟩

theorem new_fields (cfg : Config) :
    ∀ (cs : List Nat) (s s2 : BlockChain),
      List.foldlM (newChainStep cfg) s cs = some s2 →
      s2.proposerLeaderSequence = s.proposerLeaderSequence ∧
      s2.proposerTreeLevel = s.proposerTreeLevel := by
  intro cs
  induction cs with
  | nil =>
    intro s s2 h
    rw [List.foldlM_nil] at h
    cases h
    exact ⟨rfl, rfl⟩
  | cons c rest ih =>
    intro s s2 h
    rw [List.foldlM_cons] at h
    simp only [bind, Option.bind_eq_some] at h
    obtain ⟨s1, h1, h2⟩ := h
    obtain ⟨ha, hb⟩ := newChainStep_fields cfg s c s1 h1
    obtain ⟨hc, hd⟩ := ih s1 s2 h2
    exact ⟨hc.trans ha, hd.trans hb⟩

theorem genesisBase_inv (cfg : Config) : LeaderInLevelIndex (genesisBase cfg) := by
  intro L h hL
  by_cases hL0 : L = 0
  · subst hL0
    have hL2 : fupd (fun _ => none) 0 (some cfg.proposerGenesis) 0 = some h := hL
    rw [fupd_same] at hL2
    cases hL2
    show cfg.proposerGenesis ∈ (fupd (fun _ => none) 0
      (some (h256_vec_append_merge none [[cfg.proposerGenesis]])) 0).getD []
    rw [fupd_same]
    simp [h256_vec_append_merge, appendUniqueOne]
  · have hL2 : fupd (fun _ => none) 0 (some cfg.proposerGenesis) L = some h := hL
    rw [fupd_ne _ _ _ _ hL0] at hL2
    cases hL2

theorem new_inv (cfg : Config) (s : BlockChain) (h : BlockChain.new cfg = some s) :
    LeaderInLevelIndex s := by
  unfold BlockChain.new at h
  obtain ⟨ha, hb⟩ := new_fields cfg _ _ _ h
  intro L h2 hL
  rw [ha] at hL
  rw [hb]
  exact genesisBase_inv cfg L h2 hL

theorem update_ledger_inv (cfg : Config) (orc : Oracle) (s : BlockChain)
    (fuel : Nat) (s2 : BlockChain) (r : List H256 × List H256)
    (hinv : LeaderInLevelIndex s)
    (h : update_ledger cfg orc s fuel = some (s2, r)) :
    LeaderInLevelIndex s2 := by
  unfold update_ledger at h
  simp only [bind, Option.bind_eq_some] at h
  obtain ⟨sr1, h1, sc, h2, h3⟩ := h
  obtain ⟨hp1t, hp1l, _, _⟩ := phase1_fields cfg _ _ _ _ _ _ h1
  have hinv1 : LeaderInLevelIndex sr1.1 := by
    intro L hx hL
    rw [hp1l] at hL
    rw [hp1t]
    exact hinv L hx hL
  have hinv2 : LeaderInLevelIndex sc.1 := phase2_inv cfg orc _ _ _ _ _ hinv1 h2
  cases hcb : sc.2 with
  | none =>
    rw [hcb] at h3
    simp only [Option.some.injEq, Prod.mk.injEq] at h3
    obtain ⟨hs2, _⟩ := h3
    rw [← hs2]
    exact hinv2
  | some cbv =>
    rw [hcb] at h3
    simp only [bind, Option.bind_eq_some] at h3
    obtain ⟨sr3, h4, sa, h5, rtx, _, atx, _, h6⟩ := h3
    obtain ⟨hd1, hd2, _, _, _⟩ := phase3Deconfirm_fields _ _ _ _ _ h4
    have hinv3 : LeaderInLevelIndex sr3.1 := by
      intro L hx hL
      rw [hd2] at hL
      rw [hd1]
      exact hinv2 L hx hL
    have hinv4 : LeaderInLevelIndex sa.1 := by
      unfold reconfirmPhase at h5
      split at h5
      · obtain ⟨hr1, hr2, _, _, _⟩ := reconfirmLoop_fields _ _ _ _ _ _ _ _ h5
        intro L hx hL
        rw [hr2] at hL
        rw [hr1]
        exact hinv3 L hx hL
      · cases h5
        exact hinv3
    simp only [Option.some.injEq, Prod.mk.injEq] at h6
    obtain ⟨hs2, _⟩ := h6
    rw [← hs2]
    exact hinv4

theorem reachable_leader_inv (cfg : Config) :
    ∀ (s : BlockChain), Reachable cfg s → LeaderInLevelIndex s := by
  intro s hr
  induction hr with
  | init h => exact new_inv cfg _ h
  | insert _ hins ih => exact insert_block_inv _ _ _ ih hins
  | update _ hupd ih => exact update_ledger_inv _ _ _ _ _ _ ih hupd

/-- Claim C3: after `new()` and after every sequence of successful
`insert_block` and `update_ledger` calls, every level's leader-sequence
entry is either absent or a member of the proposer-level index at that
level. -/
theorem C3_leader_in_level_index (cfg : Config) (s : BlockChain)
    (hr : Reachable cfg s) (L : Nat) (h : H256)
    (hl : s.proposerLeaderSequence L = some h) :
    h ∈ (s.proposerTreeLevel L).getD [] :=
  reachable_leader_inv cfg s hr L h hl

/-- Concrete configuration with one voter chain, proposer genesis 3,
voter genesis 7. -/
def cfgOne : Config := ⟨1, 3, [7], 1, 1, (2 : ℚ) / 5⟩

/-- The state produced by `new` on `cfgOne`. -/
def sZero : BlockChain := (BlockChain.new cfgOne).getD sTen

/-- Witness for C3: in the freshly initialized state, the level-0
leader (the proposer genesis 3) is a member of the level-0 index. -/
theorem C3_witness : (3 : H256) ∈ (sZero.proposerTreeLevel 0).getD [] :=
  C3_leader_in_level_index cfgOne sZero (Reachable.init rfl) 0 3 rfl

/-! ## C5: update_ledger is a no-op when called twice in a row -/

theorem vote_diff_self (s : BlockChain) (x : H256) (lv fuel : Nat)
    (hlv : s.voterNodeLevel x = some lv) :
    vote_diff s x x fuel = some ([], []) := by
  unfold vote_diff
  rw [hlv]
  simp only [bind, Option.some_bind]
  unfold voteDiffAlign
  simp only [if_pos rfl]
  unfold voteDiffJoint
  simp

theorem vote_diff_level_to (s : BlockChain) (f t : H256) (fuel : Nat)
    (diff : List (H256 × Nat) × List (H256 × Nat))
    (h : vote_diff s f t fuel = some diff) :
    ∃ lv, s.voterNodeLevel t = some lv := by
  unfold vote_diff at h
  simp only [bind, Option.bind_eq_some] at h
  obtain ⟨tl, htl, _⟩ := h
  exact ⟨tl, htl⟩

theorem reconfirmPhase_fields (s3 : BlockChain) (cbv fuel : Nat)
    (sa : BlockChain × List H256) (h : reconfirmPhase s3 cbv fuel = some sa) :
    sa.1.proposerTreeLevel = s3.proposerTreeLevel ∧
    sa.1.proposerLeaderSequence = s3.proposerLeaderSequence ∧
    sa.1.voterBest = s3.voterBest ∧
    sa.1.voterNodeLevel = s3.voterNodeLevel ∧
    sa.1.voterLedgerTips = s3.voterLedgerTips := by
  unfold reconfirmPhase at h
  split at h
  · exact reconfirmLoop_fields _ _ _ _ _ _ _ _ h
  · cases h
    exact ⟨rfl, rfl, rfl, rfl, rfl⟩

theorem phase1_noop (cfg : Config) :
    ∀ (chains : List Nat) (s : BlockChain) (r : URange) (fuel : Nat),
      (∀ c ∈ chains, ∃ b, s.voterBest[c]? = some b ∧
        s.voterLedgerTips[c]? = some b.1 ∧ ∃ lv, s.voterNodeLevel b.1 = some lv) →
      phase1 cfg s r chains fuel = some (s, r) := by
  intro chains
  induction chains with
  | nil => intro s r fuel _; rfl
  | cons c rest ih =>
    intro s r fuel hfacts
    obtain ⟨b, hbest, htip, lv, hlv⟩ := hfacts c (List.mem_cons_self _ _)
    have hset : s.voterLedgerTips.set c b.1 = s.voterLedgerTips :=
      list_set_self _ _ _ htip
    unfold phase1
    rw [htip, hbest]
    simp only [bind, Option.some_bind]
    rw [hset]
    have hlv2 : ({ s with voterLedgerTips := s.voterLedgerTips } :
        BlockChain).voterNodeLevel b.1 = some lv := hlv
    rw [vote_diff_self _ _ lv fuel hlv2]
    simp only [Option.some_bind]
    rw [show applyDiffVotes false c
        ({ s with voterLedgerTips := s.voterLedgerTips } : BlockChain) r [] =
        some ({ s with voterLedgerTips := s.voterLedgerTips }, r) from rfl]
    simp only [Option.some_bind]
    rw [show applyDiffVotes true c
        ({ s with voterLedgerTips := s.voterLedgerTips } : BlockChain) r [] =
        some ({ s with voterLedgerTips := s.voterLedgerTips }, r) from rfl]
    simp only [Option.some_bind]
    exact ih s r fuel (fun c2 hc2 => hfacts c2 (List.mem_cons_of_mem _ hc2))

theorem phase1_tips (cfg : Config) :
    ∀ (chains : List Nat) (s : BlockChain) (r : URange) (fuel : Nat)
      (s2 : BlockChain) (r2 : URange),
      phase1 cfg s r chains fuel = some (s2, r2) → chains.Nodup →
      (∀ c, c ∉ chains → s2.voterLedgerTips[c]? = s.voterLedgerTips[c]?) ∧
      (∀ c ∈ chains, ∃ b, s2.voterBest[c]? = some b ∧
        s2.voterLedgerTips[c]? = some b.1 ∧ ∃ lv, s2.voterNodeLevel b.1 = some lv) := by
  intro chains
  induction chains with
  | nil =>
    intro s r fuel s2 r2 h _
    cases h
    exact ⟨fun _ _ => rfl, by simp⟩
  | cons c rest ih =>
    intro s r fuel s2 r2 h hnd
    have hcrest : c ∉ rest := (List.nodup_cons.1 hnd).1
    have hndrest : rest.Nodup := (List.nodup_cons.1 hnd).2
    unfold phase1 at h
    simp only [bind, Option.bind_eq_some] at h
    obtain ⟨fromT, htip0, best, hbest0, diff, hdiff, sr2, h2, sr3, h3, hrec⟩ := h
    obtain ⟨_, _, ha3, ha4, ha5⟩ := applyDiffVotes_fields false c diff.2 _ _ _ _ h2
    obtain ⟨_, _, hb3, hb4, hb5⟩ := applyDiffVotes_fields true c diff.1 _ _ _ _ h3
    obtain ⟨_, _, hc3, hc4⟩ := phase1_fields cfg rest sr3.1 sr3.2 fuel s2 r2 hrec
    obtain ⟨hout, hin⟩ := ih sr3.1 sr3.2 fuel s2 r2 hrec hndrest
    -- the three fields of sr3.1 trace back to the state after setting the tip
    have htips3 : sr3.1.voterLedgerTips = s.voterLedgerTips.set c best.1 :=
      hb5.trans ha5
    have hbest3 : sr3.1.voterBest = s.voterBest := hb3.trans ha3
    have hnl3 : sr3.1.voterNodeLevel = s.voterNodeLevel := hb4.trans ha4
    have hclen : c < s.voterLedgerTips.length := by
      rcases List.getElem?_eq_some_iff.1 htip0 with ⟨hl, _⟩
      exact hl
    constructor
    · intro c2 hc2
      have hc2c : c2 ≠ c := fun he => hc2 (he ▸ List.mem_cons_self _ _)
      have hc2rest : c2 ∉ rest := fun hm => hc2 (List.mem_cons_of_mem _ hm)
      rw [hout c2 hc2rest, htips3, List.getElem?_set_ne (Ne.symm hc2c)]
    · intro c2 hc2
      rcases List.mem_cons.1 hc2 with hce | hcm
      · subst hce
        refine ⟨best, ?_, ?_, ?_⟩
        · rw [hc3, hbest3]
          exact hbest0
        · rw [hout c2 hcrest, htips3]
          exact List.getElem?_set_self hclen
        · obtain ⟨lv, hlv⟩ := vote_diff_level_to _ _ _ _ _ hdiff
          exact ⟨lv, by rw [hc4, hnl3]; exact hlv⟩
      · exact hin c2 hcm

/-- Claim C5: calling `update_ledger` twice in a row with no
intervening `insert_block` makes the second call return empty added and
removed lists (in fact it also leaves the state unchanged), for any
oracle and fuel. -/
theorem C5_update_ledger_twice (cfg : Config) (orc orc2 : Oracle) (s : BlockChain)
    (fuel fuel2 : Nat) (s1 : BlockChain) (r : List H256 × List H256)
    (h : update_ledger cfg orc s fuel = some (s1, r)) :
    update_ledger cfg orc2 s1 fuel2 = some (s1, ([], [])) := by
  unfold update_ledger at h
  simp only [bind, Option.bind_eq_some] at h
  obtain ⟨sr1, h1, sc, h2, h3⟩ := h
  obtain ⟨_, hpost⟩ := phase1_tips cfg _ _ _ _ _ _ h1 (List.nodup_range _)
  obtain ⟨_, hb2, hn2, ht2, _⟩ := phase2_fields cfg orc _ _ _ _ _ h2
  -- transport the per-chain facts from the end of phase 1 to s1
  have hfields : s1.voterBest = sr1.1.voterBest ∧
      s1.voterNodeLevel = sr1.1.voterNodeLevel ∧
      s1.voterLedgerTips = sr1.1.voterLedgerTips := by
    cases hcb : sc.2 with
    | none =>
      rw [hcb] at h3
      simp only [Option.some.injEq, Prod.mk.injEq] at h3
      obtain ⟨hs1, _⟩ := h3
      rw [← hs1]
      exact ⟨hb2, hn2, ht2⟩
    | some cbv =>
      rw [hcb] at h3
      simp only [bind, Option.bind_eq_some] at h3
      obtain ⟨sr3, h4, sa, h5, rtx, _, atx, _, h6⟩ := h3
      obtain ⟨_, _, hd3, hd4, hd5⟩ := phase3Deconfirm_fields _ _ _ _ _ h4
      obtain ⟨_, _, he3, he4, he5⟩ := reconfirmPhase_fields _ _ _ _ h5
      simp only [Option.some.injEq, Prod.mk.injEq] at h6
      obtain ⟨hs1, _⟩ := h6
      rw [← hs1]
      exact ⟨(he3.trans hd3).trans hb2, (he4.trans hd4).trans hn2,
        (he5.trans hd5).trans ht2⟩
  have hfacts : ∀ c ∈ List.range cfg.voterChains, ∃ b, s1.voterBest[c]? = some b ∧
      s1.voterLedgerTips[c]? = some b.1 ∧ ∃ lv, s1.voterNodeLevel b.1 = some lv := by
    intro c hc
    obtain ⟨b, hb, ht, lv, hlv⟩ := hpost c hc
    exact ⟨b, by rw [hfields.1]; exact hb, by rw [hfields.2.2]; exact ht,
      lv, by rw [hfields.2.1]; exact hlv⟩
  have hnoop := phase1_noop cfg (List.range cfg.voterChains) s1
    { start := u64MAX, stop := 0 } fuel2 hfacts
  unfold update_ledger
  rw [hnoop]
  rfl

/-- Oracle used by the C5 witness. -/
def orcFive : Oracle := ⟨fun _ _ _ => 0, 1⟩

/-- Witness for C5: on the freshly initialized one-chain state, a first
`update_ledger` call succeeds and returns the state unchanged with
empty diffs, and the theorem then forces the second call to return
empty lists as well. -/
theorem C5_witness : update_ledger cfgOne orcFive sZero 2 = some (sZero, ([], [])) :=
  C5_update_ledger_twice cfgOne orcFive orcFive sZero 1 2 sZero ([], []) rfl

end Prism
